import Mathlib

/-!
Verification development for the auto-ts-inline-types engine.

The repository ships the public interface (src/types.ts) and two host
layers (the command-driven extension variant and the event-driven
extension variant).  The analysis core (the service created by
createService: file registry, position remapping, debounce scheduler,
decoration builder) is declared and called from the shipped files but its
implementation is not part of the provided sources, so those components
are modelled here from the specification, as the doc comments state.

Text is modelled as a list of lines, each line a list of characters,
matching the zero-based (line, character) addressing of the Position
type in src/types.ts.
-/


/-- Position from src/types.ts: zero-based line and character. -/
structure Position where
  line : Nat
  character : Nat
deriving DecidableEq, Repr

/-- Lexicographic strict order on positions. -/
def posLt (p q : Position) : Bool :=
  p.line < q.line || (p.line == q.line && p.character < q.character)

/-- Lexicographic order on positions. -/
def posLe (p q : Position) : Bool :=
  p.line < q.line || (p.line == q.line && p.character ≤ q.character)

/-- Decoration from src/types.ts. -/
structure Decoration where
  textBefore : String
  textAfter : String
  startPosition : Position
  endPosition : Position
  isWarning : Bool
deriving DecidableEq, Repr

/-- TextChange from src/types.ts: replaces the text in the half-open
range from start to endPos with newText.  The source field named end is
a reserved word in Lean, hence endPos; newText is held as a character
list so that line splitting is structural. -/
structure TextChange where
  start : Position
  endPos : Position
  newText : List Char
deriving DecidableEq, Repr

/-- FileChangeType from src/types.ts. -/
inductive FileChangeType where
  | Created
  | Changed
  | Deleted
deriving DecidableEq, Repr

/-- FeatureType from src/types.ts. -/
inductive FeatureType where
  | variableType
  | functionReturnType
  | functionParameterType
  | propertyType
  | parameterName
  | highlightAny
deriving DecidableEq, Repr

/-- DecorationStyle from src/types.ts. -/
structure DecorationStyle where
  opacity : Rat
  color : String
  warnColor : String
deriving DecidableEq, Repr

/-- Configuration from src/types.ts: an immutable snapshot of feature
flags, the debounce delay and the style. -/
structure Configuration where
  features : FeatureType → Bool
  updateDelay : Nat
  decorationStyle : DecorationStyle

/-- Lines of a document: a document is a non-empty list of lines. -/
abbrev Line := List Char
abbrev Doc := List Line

/-- Splits a character list at newline characters; always returns at
least one (possibly empty) line. -/
def splitLines : List Char → List Line
  | [] => [[]]
  | c :: rest =>
    if c = '\n' then [] :: splitLines rest
    else
      match splitLines rest with
      | [] => [[c]]
      | l :: ls => (c :: l) :: ls

/-- Modelled from the spec: the end of the inserted text of a
TextChange, the position just after newText when written starting at the
change's start position (part of the position-remap routine of the
missing service implementation, spec section 4.1). -/
def endOfInsert (c : TextChange) : Position :=
  if (splitLines c.newText).length ≤ 1 then
    { line := c.start.line, character := c.start.character + c.newText.length }
  else
    { line := c.start.line + ((splitLines c.newText).length - 1),
      character := ((splitLines c.newText).getLastD []).length }

/-- Modelled from the spec: the position-remap routine of the missing
service implementation (spec section 4.1).  A position strictly before
the changed range is unchanged; a position inside or at the boundary of
the range maps to the end of the inserted text; a position strictly
after is shifted by the net line and character delta. -/
def remapPosition (c : TextChange) (p : Position) : Position :=
  if posLt p c.start then p
  else if posLe p c.endPos then endOfInsert c
  else
    if p.line = c.endPos.line then
      { line := (endOfInsert c).line,
        character := (endOfInsert c).character + (p.character - c.endPos.character) }
    else
      { line := p.line - c.endPos.line + (endOfInsert c).line, character := p.character }

/-- C1 example text from the spec is one line of ten characters. -/
def exampleDoc : Doc := [String.toList "let x = 1;"]

/-- Modelled from the spec: applying a TextChange to a document held as
a list of lines; the missing service implementation applies each change
to the registry's current text snapshot (spec section 4.2).  Lines
before the start line are kept, the changed span is replaced by the
lines of newText fused with the kept prefix of the start line and the
kept suffix of the end line, and lines after the end line are kept. -/
def mergedLines (doc : Doc) (c : TextChange) : Doc :=
  if (splitLines c.newText).length ≤ 1 then
    [(doc.getD c.start.line []).take c.start.character
      ++ (splitLines c.newText).headD []
      ++ (doc.getD c.endPos.line []).drop c.endPos.character]
  else
    [(doc.getD c.start.line []).take c.start.character ++ (splitLines c.newText).headD []]
      ++ (splitLines c.newText).tail.dropLast
      ++ [(splitLines c.newText).getLastD []
            ++ (doc.getD c.endPos.line []).drop c.endPos.character]

/-- Modelled from the spec: the full document after a TextChange. -/
def applyChange (doc : Doc) (c : TextChange) : Doc :=
  doc.take c.start.line ++ mergedLines doc c ++ doc.drop (c.endPos.line + 1)

/-- Whether a position addresses a place inside the document: the line
exists and the character is at most the line length (end-of-line is a
valid insertion point). -/
def validPosB (doc : Doc) (p : Position) : Bool :=
  p.line < doc.length && p.character ≤ (doc.getD p.line []).length

/-- Whether a TextChange is well formed against a document. -/
def validChangeB (doc : Doc) (c : TextChange) : Bool :=
  posLe c.start c.endPos && validPosB doc c.start && validPosB doc c.endPos

/-- Modelled from the spec: a File Registry entry of the missing service
implementation (spec section 3): last-known text snapshot, last-known
decoration set, dirty flag, pending debounce timer, plus the generation
counter and in-flight rebuild snapshot of the stale-result rule (spec
sections 4.3 and 5).  The in-flight field records the generation and the
text a running rebuild observes. -/
structure FileEntry where
  currentText : Doc
  decorations : List Decoration
  dirty : Bool
  pendingTimer : Bool
  generation : Nat
  inflight : Option (Nat × Doc)

/-- Modelled from the spec: a fresh entry has empty text, no decorations
and a clear dirty flag (spec section 4.2). -/
def emptyEntry : FileEntry :=
  { currentText := [[]], decorations := [], dirty := false, pendingTimer := false,
    generation := 0, inflight := none }

/-- Modelled from the spec: the registry map from paths to entries. -/
def Registry : Type := String → Option FileEntry

/-- Pointwise update of the registry map. -/
def updateReg (reg : Registry) (path : String) (e : Option FileEntry) : Registry :=
  fun q => if q = path then e else reg q

/-- Modelled from the spec: getDecorations of the missing service
implementation returns the stored sequence, empty for unknown paths,
and performs no mutation (spec sections 4.2 and 4.5). -/
def getDecorations (reg : Registry) (path : String) : List Decoration :=
  match reg path with
  | none => []
  | some e => e.decorations

/-- Modelled from the spec: remapping one decoration through a change
maps both anchor positions (spec section 4.2). -/
def remapDecoration (c : TextChange) (d : Decoration) : Decoration :=
  { d with startPosition := remapPosition c d.startPosition,
           endPosition := remapPosition c d.endPosition }

/-- Modelled from the spec: one TextChange applied to an entry mutates
the text snapshot and remaps every stored decoration (spec section
4.2). -/
def applyChangeEntry (e : FileEntry) (c : TextChange) : FileEntry :=
  { e with currentText := applyChange e.currentText c,
           decorations := e.decorations.map (remapDecoration c) }

/-- Modelled from the spec: notifyDocumentChange of the missing service
implementation applies each TextChange in order against the state left
by the previous one, marks the file dirty, re-arms the debounce timer
and bumps the generation counter (spec sections 4.2 and 4.3). -/
def notifyDocumentChange (reg : Registry) (path : String)
    (changes : List TextChange) : Registry :=
  match reg path with
  | none => reg
  | some e =>
    updateReg reg path (some
      { changes.foldl applyChangeEntry e with
          dirty := true, pendingTimer := true,
          generation := e.generation + 1 })

/-- Modelled from the spec: notifyFileChange of the missing service
implementation; Created ensures an entry and marks it dirty, Changed
marks dirty, Deleted removes the entry, cancelling its pending timer
with it; Deleted on an unknown path is a no-op (spec section 4.2). -/
def notifyFileChange (reg : Registry) (path : String) (k : FileChangeType) : Registry :=
  match k with
  | FileChangeType.Created =>
    updateReg reg path (some
      { (reg path).getD emptyEntry with
          dirty := true, pendingTimer := true,
          generation := ((reg path).getD emptyEntry).generation + 1 })
  | FileChangeType.Changed =>
    updateReg reg path (some
      { (reg path).getD emptyEntry with
          dirty := true, pendingTimer := true,
          generation := ((reg path).getD emptyEntry).generation + 1 })
  | FileChangeType.Deleted => updateReg reg path none

/-- Modelled from the spec: the debounce timer fires and a rebuild
starts, snapshotting the generation and the current text it observes
(spec sections 4.3 and 5). -/
def startRebuild (reg : Registry) (path : String) : Registry :=
  match reg path with
  | none => reg
  | some e =>
    updateReg reg path (some
      { e with pendingTimer := false, inflight := some (e.generation, e.currentText) })

/-- Modelled from the spec: an in-flight rebuild completes; its result
is installed only when the generation still matches the one the rebuild
started from, otherwise it is discarded and the debounce timer is
re-armed (stale-result rejection, spec section 4.3). -/
def completeRebuild (build : Doc → List Decoration) (reg : Registry)
    (path : String) : Registry :=
  match reg path with
  | none => reg
  | some e =>
    match e.inflight with
    | none => reg
    | some (g, t) =>
      if g = e.generation then
        updateReg reg path (some
          { e with decorations := build t, dirty := false, inflight := none })
      else
        updateReg reg path (some { e with inflight := none, pendingTimer := true })

/-- Whether a decoration is position-valid against a document: start at
most end, both in bounds. -/
def decorationValidB (doc : Doc) (d : Decoration) : Bool :=
  posLe d.startPosition d.endPosition && validPosB doc d.startPosition
    && validPosB doc d.endPosition

/-- Validity of a batch of changes, each checked against the document
state produced by the previous one. -/
def validChangesB : Doc → List TextChange → Bool
  | _, [] => true
  | doc, c :: cs => validChangeB doc c && validChangesB (applyChange doc c) cs

/-- The text snapshot the registry holds for a path (the empty entry's
text for unknown paths). -/
def entryText (reg : Registry) (path : String) : Doc :=
  ((reg path).getD emptyEntry).currentText

/-- Every decoration stored for a path is position-valid against that
path's last-known text, and an in-flight snapshot whose generation still
matches is the current text. -/
def EntryInv (e : FileEntry) : Prop :=
  (∀ d ∈ e.decorations, decorationValidB e.currentText d = true) ∧
  (∀ g t, e.inflight = some (g, t) →
    g ≤ e.generation ∧ (g = e.generation → t = e.currentText))

/-- The registry-wide invariant. -/
def RegInv (reg : Registry) : Prop :=
  ∀ path e, reg path = some e → EntryInv e

/-- A builder is position-sound when everything it emits is valid
against the text it was built from. -/
def BuilderValid (build : Doc → List Decoration) : Prop :=
  ∀ doc d, d ∈ build doc → decorationValidB doc d = true

/-- Modelled from the spec: a semantic fact the Type Oracle yields for a
syntactic node: its feature category, the anchor range in the text and
the inferred type or signature text (spec sections 4.4 and 6).  Nodes
for which the oracle yields nothing usable simply produce no fact. -/
structure NodeFact where
  feature : FeatureType
  startPosition : Position
  endPosition : Position
  typeText : String
deriving DecidableEq, Repr

/-- Modelled from the spec: the parse-walk-infer pipeline of the missing
decoration builder as a black box answering with the facts of a given
text (spec sections 4.4, 6 and 9); the core is testable against any
oracle. -/
def Oracle : Type := Doc → List NodeFact

/-- Modelled from the spec: the decoration built from one fact; the
inferred text is rendered after the node's range, and an inferred type
textually equal to any is flagged when highlightAny is enabled (spec
section 4.4). -/
def factDecoration (cfg : Configuration) (f : NodeFact) : Decoration :=
  { textBefore := "", textAfter := f.typeText,
    startPosition := f.startPosition, endPosition := f.endPosition,
    isWarning := cfg.features FeatureType.highlightAny && f.typeText == "any" }

/-- The deduplication key of a decoration: anchor range and rendered
texts. -/
def decoKey (d : Decoration) : Position × Position × String × String :=
  (d.startPosition, d.endPosition, d.textBefore, d.textAfter)

/-- Order of decorations by start position. -/
def decoLe (d1 d2 : Decoration) : Prop :=
  posLe d1.startPosition d2.startPosition = true

/-- Insertion into a list sorted by start position. -/
def insertByStart (d : Decoration) : List Decoration → List Decoration
  | [] => [d]
  | e :: rest =>
    if posLe d.startPosition e.startPosition then d :: e :: rest
    else e :: insertByStart d rest

/-- Modelled from the spec: the builder's result sequence is sorted by
startPosition (spec section 4.4). -/
def sortByStart (l : List Decoration) : List Decoration :=
  l.foldr insertByStart []

/-- Removing later duplicates of already seen keys. -/
def dedupAux (seen : List (Position × Position × String × String)) :
    List Decoration → List Decoration
  | [] => []
  | d :: rest =>
    if decoKey d ∈ seen then dedupAux seen rest
    else d :: dedupAux (decoKey d :: seen) rest

/-- Modelled from the spec: no two decorations of one build share the
exact same key tuple (spec section 3). -/
def dedupByKey (l : List Decoration) : List Decoration :=
  dedupAux [] l

/-- Modelled from the spec: the Decoration Builder of the missing
service implementation; from the current text it takes the oracle's
facts, keeps those whose feature category is enabled, builds a
decoration for each, sorts by start position and deduplicates
(spec section 4.4). -/
def build (oracle : Oracle) (cfg : Configuration) (doc : Doc) : List Decoration :=
  dedupByKey (sortByStart
    (((oracle doc).filter (fun f => cfg.features f.feature)).map (factDecoration cfg)))

/-- Modelled from the spec: a dirtying mutation event of the Incremental
Update Scheduler, with its arrival time in milliseconds, the path it
dirties and the text state it leaves behind (spec section 4.3). -/
structure Mutation where
  time : Nat
  path : String
  text : Doc

/-- Modelled from the spec: a later mutation cancels and re-arms the
single-shot timer a mutation armed when it hits the same path within
updateDelay milliseconds (trailing-edge debounce, spec section 4.3). -/
def cancels (delay : Nat) (m later : Mutation) : Bool :=
  later.path == m.path && later.time ≤ m.time + delay

/-- Modelled from the spec: the rebuilds the debounce scheduler performs
for a list of mutations in arrival order; a mutation's timer fires, with
the text state that mutation left, exactly when no later mutation to the
same path arrives within the delay (spec section 4.3). -/
def rebuildsFrom (delay : Nat) : List Mutation → List (String × Doc)
  | [] => []
  | m :: rest =>
    if rest.any (cancels delay m) then rebuildsFrom delay rest
    else (m.path, m.text) :: rebuildsFrom delay rest

/-- An engine instance pairs the injected immutable configuration
snapshot with the registry state (spec section 6 and the activate
function of the event-driven host layer). -/
structure Engine where
  cfg : Configuration
  reg : Registry

/-- A fresh engine instance for a configuration snapshot. -/
def freshEngine (cfg : Configuration) : Engine :=
  { cfg := cfg, reg := fun _ => none }

def engineNotifyFileChange (E : Engine) (path : String) (k : FileChangeType) : Engine :=
  { E with reg := notifyFileChange E.reg path k }

def engineNotifyDocumentChange (E : Engine) (path : String)
    (cs : List TextChange) : Engine :=
  { E with reg := notifyDocumentChange E.reg path cs }

def engineStartRebuild (E : Engine) (path : String) : Engine :=
  { E with reg := startRebuild E.reg path }

def engineCompleteRebuild (oracle : Oracle) (E : Engine) (path : String) : Engine :=
  { E with reg := completeRebuild (build oracle E.cfg) E.reg path }

/-- The configuration-change handler of the event-driven host layer
(src/unnamed/part_001, activate): when the change affects the
inlineTypes section, the old service is disposed and a new one is
created from the new configuration snapshot; otherwise nothing
happens. -/
def handleConfigurationChange (affects : Bool) (E : Engine)
    (newCfg : Configuration) : Engine :=
  if affects then freshEngine newCfg else E

/-- The host document state of the command-driven layer: the editor
buffer and the last state saved to disk. -/
structure HostState where
  doc : Doc
  savedDoc : Doc

/-- The text of the one-character range starting at a position, as read
by document.getText over the range from endPosition to the next
character (src/unnamed/part_000, updateDecorations). -/
def getCharAt (doc : Doc) (p : Position) : List Char :=
  ((doc.getD p.line []).drop p.character).take 1

/-- The edit the command-driven updateDecorations performs for one
decoration with non-empty textAfter: it replaces the range from
endPosition to endPosition advanced by one character with textAfter
concatenated with the original text of that range
(src/unnamed/part_000, lines 88 to 96). -/
def insertAfterChange (doc : Doc) (d : Decoration) : TextChange :=
  { start := d.endPosition,
    endPos := { line := d.endPosition.line, character := d.endPosition.character + 1 },
    newText := d.textAfter.toList ++ getCharAt doc d.endPosition }

/-- The per-editor loop of the command-driven updateDecorations
(src/unnamed/part_000, lines 83 to 124): the fuel is the number of
remaining iterations of the for loop whose bound was fixed at entry; in
each iteration the head decoration is inspected; when its textAfter is
non-empty the insertion edit is applied and the document saved, the loop
returns when this was the last iteration, and otherwise a fresh service
is constructed and the decoration list re-fetched; afterwards, when the
inspected decoration's textBefore is non-empty, the list is advanced by
one. -/
def updateDecorations (provider : Doc → List Decoration) :
    Nat → HostState → List Decoration → HostState
  | 0, st, _ => st
  | Nat.succ i, st, decos =>
    match decos with
    | [] => st
    | d :: rest =>
      if d.textAfter ≠ "" then
        let doc2 := applyChange st.doc (insertAfterChange st.doc d)
        let st2 : HostState := { doc := doc2, savedDoc := doc2 }
        if i = 0 then st2
        else
          updateDecorations provider i st2
            (if d.textBefore ≠ "" then (provider doc2).tail else provider doc2)
      else
        updateDecorations provider i st (if d.textBefore ≠ "" then rest else d :: rest)

theorem posLt_iff (p q : Position) :
    posLt p q = true ↔ p.line < q.line ∨ (p.line = q.line ∧ p.character < q.character) := by
  simp [posLt]

theorem posLe_iff (p q : Position) :
    posLe p q = true ↔ p.line < q.line ∨ (p.line = q.line ∧ p.character ≤ q.character) := by
  simp [posLe]

theorem splitLines_ne_nil (cs : List Char) : splitLines cs ≠ [] := by
  induction cs with
  | nil => simp [splitLines]
  | cons c rest ih =>
    simp only [splitLines]
    split
    · simp
    · cases h : splitLines rest with
      | nil => simp
      | cons l ls => simp

/-- A character list without newlines splits into a single line. -/
theorem splitLines_single (cs : List Char) (h : '\n' ∉ cs) : splitLines cs = [cs] := by
  induction cs with
  | nil => rfl
  | cons c rest ih =>
    simp only [List.mem_cons, not_or] at h
    simp only [splitLines]
    rw [if_neg (by exact fun hc => h.1 hc.symm)]
    rw [ih h.2]

/-- For a single-line insertion (no newline in newText) at a zero-width
range, the end of inserted text stays on the same line, shifted by the
inserted length. -/
theorem endOfInsert_single (c : TextChange) (h : '\n' ∉ c.newText) :
    endOfInsert c =
      { line := c.start.line, character := c.start.character + c.newText.length } := by
  simp [endOfInsert, splitLines_single c.newText h]

/-- A split with a single part is the whole input as one line. -/
theorem splitLines_length_one (cs : List Char) (h : (splitLines cs).length = 1) :
    splitLines cs = [cs] := by
  induction cs with
  | nil => rfl
  | cons c rest ih =>
    by_cases hc : c = '\n'
    · exfalso
      have hne := splitLines_ne_nil rest
      simp only [splitLines, hc, if_true, eq_self_iff_true, List.length_cons] at h
      exact hne (List.length_eq_zero.mp (by omega))
    · cases hsr : splitLines rest with
      | nil => exact absurd hsr (splitLines_ne_nil rest)
      | cons l ls =>
        simp only [splitLines, if_neg hc, hsr] at h ⊢
        simp only [List.length_cons] at h
        have hls : ls = [] := List.length_eq_zero.mp (by omega)
        subst hls
        have h2 : splitLines rest = [rest] := ih (by rw [hsr]; rfl)
        rw [hsr] at h2
        simp only [List.cons.injEq] at h2
        simp [h2.1]

theorem getD_append_left {α : Type} (l1 l2 : List α) (i : Nat) (d : α)
    (h : i < l1.length) : (l1 ++ l2).getD i d = l1.getD i d := by
  induction l1 generalizing i with
  | nil => simp at h
  | cons a l ih =>
    cases i with
    | zero => rfl
    | succ j => exact ih j (by simpa using h)

theorem getD_append_right {α : Type} (l1 l2 : List α) (i : Nat) (d : α)
    (h : l1.length ≤ i) : (l1 ++ l2).getD i d = l2.getD (i - l1.length) d := by
  induction l1 generalizing i with
  | nil => simp
  | cons a l ih =>
    cases i with
    | zero => simp at h
    | succ j =>
      simp only [List.cons_append, List.getD_cons_succ, List.length_cons, Nat.succ_sub_succ]
      exact ih j (by simpa using h)

theorem getD_take {α : Type} (l : List α) (m i : Nat) (d : α)
    (h : i < m) : (l.take m).getD i d = l.getD i d := by
  induction l generalizing m i with
  | nil => simp
  | cons a l ih =>
    cases m with
    | zero => omega
    | succ m =>
      cases i with
      | zero => rfl
      | succ j => exact ih m j (by omega)

theorem getD_drop {α : Type} (l : List α) (m i : Nat) (d : α) :
    (l.drop m).getD i d = l.getD (m + i) d := by
  induction l generalizing m with
  | nil => simp
  | cons a l ih =>
    cases m with
    | zero => simp
    | succ m =>
      simp only [List.drop_succ_cons, Nat.succ_add, List.getD_cons_succ]
      exact ih m

theorem splitLines_length_pos (cs : List Char) : 0 < (splitLines cs).length :=
  List.length_pos.mpr (splitLines_ne_nil cs)

/-- The end of inserted text never precedes the start of the change. -/
theorem endOfInsert_ge_start (c : TextChange) :
    c.start.line ≤ (endOfInsert c).line ∧
      ((endOfInsert c).line = c.start.line →
        c.start.character ≤ (endOfInsert c).character) := by
  unfold endOfInsert
  split
  · simp
  · simp only
    constructor
    · omega
    · intro h
      exfalso
      have := splitLines_length_pos c.newText
      omega

theorem mergedLines_length (doc : Doc) (c : TextChange) :
    (mergedLines doc c).length = (splitLines c.newText).length := by
  have hne := splitLines_ne_nil c.newText
  have hpos : 1 ≤ (splitLines c.newText).length := by
    cases h : splitLines c.newText with
    | nil => exact absurd h hne
    | cons l ls => simp
  unfold mergedLines
  split
  · simp; omega
  · simp only [List.length_append, List.length_cons, List.length_nil, List.length_dropLast,
      List.length_tail]
    omega

theorem take_length_eq (doc : Doc) (n : Nat) (h : n ≤ doc.length) :
    (doc.take n).length = n := by
  simp [List.length_take]
  omega

theorem applyChange_length (doc : Doc) (c : TextChange) (h : c.start.line ≤ doc.length) :
    (applyChange doc c).length
      = c.start.line + (splitLines c.newText).length
          + (doc.length - (c.endPos.line + 1)) := by
  unfold applyChange
  simp [List.length_append, take_length_eq doc c.start.line h, mergedLines_length,
    List.length_drop]
  omega

theorem applyChange_getD_before (doc : Doc) (c : TextChange) (i : Nat)
    (h : i < c.start.line) (hs : c.start.line ≤ doc.length) :
    (applyChange doc c).getD i [] = doc.getD i [] := by
  unfold applyChange
  rw [getD_append_left _ _ _ _
      (by rw [List.length_append, take_length_eq doc c.start.line hs]; omega),
    getD_append_left _ _ _ _ (by rw [take_length_eq doc c.start.line hs]; omega),
    getD_take _ _ _ _ h]

theorem applyChange_getD_merged (doc : Doc) (c : TextChange) (j : Nat)
    (h : j < (splitLines c.newText).length) (hs : c.start.line ≤ doc.length) :
    (applyChange doc c).getD (c.start.line + j) [] = (mergedLines doc c).getD j [] := by
  unfold applyChange
  rw [getD_append_left _ _ _ _
      (by rw [List.length_append, take_length_eq doc c.start.line hs, mergedLines_length]
          omega),
    getD_append_right _ _ _ _ (by rw [take_length_eq doc c.start.line hs]; omega),
    take_length_eq doc c.start.line hs, Nat.add_sub_cancel_left]

theorem applyChange_getD_after (doc : Doc) (c : TextChange) (j : Nat)
    (hs : c.start.line ≤ doc.length) :
    (applyChange doc c).getD (c.start.line + (splitLines c.newText).length + j) []
      = doc.getD (c.endPos.line + 1 + j) [] := by
  unfold applyChange
  rw [getD_append_right _ _ _ _
      (by rw [List.length_append, take_length_eq doc c.start.line hs, mergedLines_length]
          omega),
    getD_drop]
  have : c.start.line + (splitLines c.newText).length + j
      - (doc.take c.start.line ++ mergedLines doc c).length = j := by
    rw [List.length_append, take_length_eq doc c.start.line hs, mergedLines_length]
    omega
  rw [this]

theorem mergedLines_head_length (doc : Doc) (c : TextChange)
    (hs2 : c.start.character ≤ (doc.getD c.start.line []).length) :
    c.start.character ≤ ((mergedLines doc c).getD 0 []).length := by
  unfold mergedLines
  split
  · rw [List.getD_cons_zero]
    simp only [List.length_append, List.length_take]
    omega
  · rw [List.singleton_append, List.cons_append, List.getD_cons_zero]
    simp only [List.length_append, List.length_take]
    omega

theorem endOfInsert_line_eq (c : TextChange) :
    (endOfInsert c).line = c.start.line + ((splitLines c.newText).length - 1) := by
  have := splitLines_length_pos c.newText
  unfold endOfInsert
  split
  · simp
    omega
  · simp

theorem mergedLines_last_length (doc : Doc) (c : TextChange)
    (hs2 : c.start.character ≤ (doc.getD c.start.line []).length) :
    ((mergedLines doc c).getD ((splitLines c.newText).length - 1) []).length
      = (endOfInsert c).character
        + ((doc.getD c.endPos.line []).length - c.endPos.character) := by
  by_cases hone : (splitLines c.newText).length ≤ 1
  · have hpos := splitLines_length_pos c.newText
    have h1 : splitLines c.newText = [c.newText] := splitLines_length_one _ (by omega)
    unfold mergedLines endOfInsert
    rw [if_pos hone, if_pos hone, h1]
    have hidx : ([c.newText] : List (List Char)).length - 1 = 0 := rfl
    rw [hidx, List.getD_cons_zero]
    simp only [List.headD_cons, List.length_append, List.length_take, List.length_drop]
    omega
  · unfold mergedLines endOfInsert
    rw [if_neg hone, if_neg hone]
    have hmid : (splitLines c.newText).tail.dropLast.length
        = (splitLines c.newText).length - 2 := by
      simp [List.length_dropLast, List.length_tail]
      omega
    rw [List.singleton_append, List.cons_append,
      show (splitLines c.newText).length - 1 = ((splitLines c.newText).length - 2) + 1
        from by omega,
      List.getD_cons_succ,
      getD_append_right _ _ _ _ (by rw [hmid]),
      hmid, Nat.sub_self]
    simp [List.length_append, List.length_drop]

/-- A valid position maps to a valid position of the edited document
under the position remap of a valid change. -/
theorem remapPosition_valid (doc : Doc) (c : TextChange) (p : Position)
    (hc : validChangeB doc c = true) (hp : validPosB doc p = true) :
    validPosB (applyChange doc c) (remapPosition c p) = true := by
  simp only [validChangeB, validPosB, posLe, posLt, Bool.and_eq_true, Bool.or_eq_true,
    decide_eq_true_eq, beq_iff_eq] at hc hp
  obtain ⟨⟨hse, hs1, hs2⟩, he1, he2⟩ := hc
  obtain ⟨hp1, hp2⟩ := hp
  have hkpos := splitLines_length_pos c.newText
  have hlen := applyChange_length doc c (Nat.le_of_lt hs1)
  have heoi := endOfInsert_ge_start c
  have heol := endOfInsert_line_eq c
  unfold remapPosition
  split
  · rename_i htrue
    have hplt : p.line < c.start.line ∨
        (p.line = c.start.line ∧ p.character < c.start.character) := by
      simpa [posLt] using htrue
    simp only [validPosB, Bool.and_eq_true, decide_eq_true_eq]
    refine ⟨by rw [hlen]; omega, ?_⟩
    rcases hplt with hlt | ⟨heq, hlt⟩
    · rw [applyChange_getD_before doc c p.line hlt (Nat.le_of_lt hs1)]
      exact hp2
    · rw [heq]
      have h0 := applyChange_getD_merged doc c 0 hkpos (Nat.le_of_lt hs1)
      rw [Nat.add_zero] at h0
      rw [h0]
      have hhead := mergedLines_head_length doc c hs2
      omega
  · split
    · simp only [validPosB, Bool.and_eq_true, decide_eq_true_eq]
      constructor
      · rw [hlen, heol]
        omega
      · rw [heol, applyChange_getD_merged doc c ((splitLines c.newText).length - 1)
            (by omega) (Nat.le_of_lt hs1),
          mergedLines_last_length doc c hs2]
        omega
    · rename_i hnlt hnle
      have hnlt2 : ¬(p.line < c.start.line ∨
          (p.line = c.start.line ∧ p.character < c.start.character)) := by
        simpa [posLt] using hnlt
      have hnle2 : ¬(p.line < c.endPos.line ∨
          (p.line = c.endPos.line ∧ p.character ≤ c.endPos.character)) := by
        simpa [posLe] using hnle
      split
      · rename_i hpe
        have hgt : c.endPos.character < p.character := by omega
        simp only [validPosB, Bool.and_eq_true, decide_eq_true_eq]
        constructor
        · rw [hlen, heol]
          omega
        · rw [heol, applyChange_getD_merged doc c ((splitLines c.newText).length - 1)
              (by omega) (Nat.le_of_lt hs1),
            mergedLines_last_length doc c hs2]
          rw [hpe] at hp2
          omega
      · rename_i hpe
        have hgt : c.endPos.line < p.line := by omega
        simp only [validPosB, Bool.and_eq_true, decide_eq_true_eq]
        constructor
        · rw [hlen, heol]
          omega
        · have hidx : p.line - c.endPos.line + (endOfInsert c).line
              = c.start.line + (splitLines c.newText).length
                + (p.line - c.endPos.line - 1) := by
            rw [heol]
            omega
          rw [hidx, applyChange_getD_after doc c _ (Nat.le_of_lt hs1)]
          have hidx2 : c.endPos.line + 1 + (p.line - c.endPos.line - 1) = p.line := by
            omega
          rw [hidx2]
          exact hp2

/-- Position remapping is monotone in the lexicographic order, so a
decoration's start never overtakes its end under remapping. -/
theorem remapPosition_mono (c : TextChange) (p q : Position)
    (hv : posLe c.start c.endPos = true) (hpq : posLe p q = true) :
    posLe (remapPosition c p) (remapPosition c q) = true := by
  have hkpos := splitLines_length_pos c.newText
  have hec : ((endOfInsert c).line = c.start.line
        ∧ c.start.character ≤ (endOfInsert c).character)
      ∨ c.start.line < (endOfInsert c).line := by
    unfold endOfInsert
    split
    · exact Or.inl ⟨rfl, Nat.le_add_right _ _⟩
    · right
      simp
      omega
  unfold remapPosition
  repeat' split
  all_goals simp [posLt, posLe] at *
  all_goals omega

theorem posLe_of_not_posLe (p q : Position) (h : ¬posLe p q = true) :
    posLe q p = true := by
  simp [posLe] at *
  omega

theorem mem_insertByStart (a d : Decoration) (l : List Decoration) :
    a ∈ insertByStart d l ↔ a = d ∨ a ∈ l := by
  induction l with
  | nil => simp [insertByStart]
  | cons e rest ih =>
    simp only [insertByStart]
    split
    · simp
    · simp [ih]
      tauto

theorem sorted_insertByStart (d : Decoration) (l : List Decoration)
    (h : List.Sorted decoLe l) : List.Sorted decoLe (insertByStart d l) := by
  induction l with
  | nil => simp [insertByStart, List.Sorted]
  | cons e rest ih =>
    simp only [insertByStart]
    rw [List.sorted_cons] at h
    split
    · rename_i hle
      rw [List.sorted_cons]
      constructor
      · intro b hb
        simp only [List.mem_cons] at hb
        rcases hb with rfl | hb
        · exact hle
        · have h2 := h.1 b hb
          simp [decoLe, posLe] at *
          omega
      · rw [List.sorted_cons]
        exact h
    · rename_i hnle
      rw [List.sorted_cons]
      constructor
      · intro b hb
        rw [mem_insertByStart] at hb
        rcases hb with rfl | hb
        · exact posLe_of_not_posLe _ _ hnle
        · exact h.1 b hb
      · exact ih h.2

theorem sorted_sortByStart (l : List Decoration) :
    List.Sorted decoLe (sortByStart l) := by
  induction l with
  | nil => simp [sortByStart, List.Sorted]
  | cons d rest ih => exact sorted_insertByStart d _ ih

theorem mem_sortByStart (a : Decoration) (l : List Decoration) :
    a ∈ sortByStart l ↔ a ∈ l := by
  induction l with
  | nil => simp [sortByStart]
  | cons d rest ih =>
    show a ∈ insertByStart d (sortByStart rest) ↔ _
    rw [mem_insertByStart, ih]
    simp

theorem dedupAux_sublist (seen : List (Position × Position × String × String))
    (l : List Decoration) : (dedupAux seen l).Sublist l := by
  induction l generalizing seen with
  | nil => simp [dedupAux]
  | cons d rest ih =>
    simp only [dedupAux]
    split
    · exact (ih seen).cons d
    · exact (ih (decoKey d :: seen)).cons₂ d

theorem dedupAux_not_seen (seen : List (Position × Position × String × String))
    (l : List Decoration) (b : Decoration) (hb : b ∈ dedupAux seen l) :
    decoKey b ∉ seen := by
  induction l generalizing seen with
  | nil => simp [dedupAux] at hb
  | cons d rest ih =>
    simp only [dedupAux] at hb
    split at hb
    · exact ih seen hb
    · rename_i hd
      simp only [List.mem_cons] at hb
      rcases hb with rfl | hb
      · exact hd
      · have := ih (decoKey d :: seen) hb
        intro hmem
        exact this (List.mem_cons_of_mem _ hmem)

theorem dedupAux_pairwise (seen : List (Position × Position × String × String))
    (l : List Decoration) :
    (dedupAux seen l).Pairwise (fun a b => decoKey a ≠ decoKey b) := by
  induction l generalizing seen with
  | nil => simp [dedupAux]
  | cons d rest ih =>
    simp only [dedupAux]
    split
    · exact ih seen
    · refine List.Pairwise.cons ?_ (ih (decoKey d :: seen))
      intro b hb
      have := dedupAux_not_seen _ _ b hb
      intro he
      exact this (by rw [← he]; exact List.mem_cons_self _ _)

theorem dedupAux_exists_key (seen : List (Position × Position × String × String))
    (l : List Decoration) (b : Decoration) (hb : b ∈ l) :
    decoKey b ∈ seen ∨ ∃ b2 ∈ dedupAux seen l, decoKey b2 = decoKey b := by
  induction l generalizing seen with
  | nil => simp at hb
  | cons d rest ih =>
    simp only [List.mem_cons] at hb
    simp only [dedupAux]
    split
    · rename_i hd
      rcases hb with rfl | hb
      · exact Or.inl hd
      · rcases ih seen hb with h | ⟨b2, h2, h3⟩
        · exact Or.inl h
        · exact Or.inr ⟨b2, h2, h3⟩
    · rcases hb with rfl | hb
      · exact Or.inr ⟨b, List.mem_cons_self _ _, rfl⟩
      · rcases ih (decoKey d :: seen) hb with h | ⟨b2, h2, h3⟩
        · simp only [List.mem_cons] at h
          rcases h with h | h
          · exact Or.inr ⟨d, List.mem_cons_self _ _, h.symm⟩
          · exact Or.inl h
        · exact Or.inr ⟨b2, List.mem_cons_of_mem _ h2, h3⟩

theorem dedupByKey_exists_key (l : List Decoration) (b : Decoration) (hb : b ∈ l) :
    ∃ b2 ∈ dedupByKey l, decoKey b2 = decoKey b := by
  rcases dedupAux_exists_key [] l b hb with h | h
  · simp at h
  · exact h

theorem build_subset_facts (oracle : Oracle) (cfg : Configuration) (doc : Doc)
    (d : Decoration) (hd : d ∈ build oracle cfg doc) :
    ∃ f ∈ oracle doc, cfg.features f.feature = true ∧ d = factDecoration cfg f := by
  have h1 : d ∈ sortByStart
      (((oracle doc).filter (fun f => cfg.features f.feature)).map (factDecoration cfg)) :=
    (dedupAux_sublist [] _).subset hd
  rw [mem_sortByStart] at h1
  rw [List.mem_map] at h1
  obtain ⟨f, hf, rfl⟩ := h1
  rw [List.mem_filter] at hf
  exact ⟨f, hf.1, hf.2, rfl⟩

theorem updateReg_eq (reg : Registry) (path : String) (x : Option FileEntry)
    (q : String) : updateReg reg path x q = if q = path then x else reg q := rfl

theorem foldl_applyChangeEntry_proj (cs : List TextChange) (e : FileEntry) :
    (cs.foldl applyChangeEntry e).currentText = cs.foldl applyChange e.currentText ∧
    (cs.foldl applyChangeEntry e).inflight = e.inflight ∧
    (cs.foldl applyChangeEntry e).generation = e.generation := by
  induction cs generalizing e with
  | nil => exact ⟨rfl, rfl, rfl⟩
  | cons c cs ih =>
    simp only [List.foldl_cons]
    have h := ih (applyChangeEntry e c)
    simpa [applyChangeEntry] using h

theorem foldl_applyChangeEntry_valid (cs : List TextChange) (e : FileEntry)
    (hcs : validChangesB e.currentText cs = true)
    (hd : ∀ d ∈ e.decorations, decorationValidB e.currentText d = true) :
    ∀ d ∈ (cs.foldl applyChangeEntry e).decorations,
      decorationValidB (cs.foldl applyChangeEntry e).currentText d = true := by
  induction cs generalizing e with
  | nil => simpa using hd
  | cons c cs ih =>
    simp only [validChangesB, Bool.and_eq_true] at hcs
    simp only [List.foldl_cons]
    apply ih (applyChangeEntry e c)
    · simpa [applyChangeEntry] using hcs.2
    · intro d hdm
      simp only [applyChangeEntry, List.mem_map] at hdm
      obtain ⟨d0, hd0, rfl⟩ := hdm
      have hv := hd d0 hd0
      simp only [decorationValidB, Bool.and_eq_true] at hv ⊢
      obtain ⟨⟨h1, h2⟩, h3⟩ := hv
      have hvc : validChangeB e.currentText c = true := hcs.1
      have hse : posLe c.start c.endPos = true := by
        simp only [validChangeB, Bool.and_eq_true] at hvc
        exact hvc.1.1
      simp only [applyChangeEntry, remapDecoration]
      exact ⟨⟨remapPosition_mono c _ _ hse h1, remapPosition_valid _ c _ hvc h2⟩,
        remapPosition_valid _ c _ hvc h3⟩

theorem entryInv_empty : EntryInv emptyEntry := by
  constructor
  · intro d hd
    simp [emptyEntry] at hd
  · intro g t h
    simp [emptyEntry] at h

theorem regInv_notifyDocumentChange (reg : Registry) (path : String)
    (cs : List TextChange) (hreg : RegInv reg)
    (hcs : validChangesB (entryText reg path) cs = true) :
    RegInv (notifyDocumentChange reg path cs) := by
  intro q e' he'
  unfold notifyDocumentChange at he'
  cases hrp : reg path with
  | none =>
    rw [hrp] at he'
    exact hreg q e' he'
  | some e =>
    rw [hrp] at he'
    simp only at he'
    rw [updateReg_eq] at he'
    by_cases hq : q = path
    · rw [if_pos hq] at he'
      injection he' with he'
      subst he'
      have hbase := hreg path e hrp
      have htext : entryText reg path = e.currentText := by
        simp [entryText, hrp]
      rw [htext] at hcs
      have hproj := foldl_applyChangeEntry_proj cs e
      constructor
      · intro d hd
        exact foldl_applyChangeEntry_valid cs e hcs hbase.1 d hd
      · intro g t hin
        simp only at hin
        rw [hproj.2.1] at hin
        have h1 := (hbase.2 g t hin).1
        exact ⟨Nat.le_succ_of_le h1,
          fun hg => absurd hg (Nat.ne_of_lt (Nat.lt_succ_of_le h1))⟩
    · rw [if_neg hq] at he'
      exact hreg q e' he'

theorem regInv_notifyFileChange (reg : Registry) (path : String)
    (k : FileChangeType) (hreg : RegInv reg) :
    RegInv (notifyFileChange reg path k) := by
  intro q e' he'
  have hbase : EntryInv ((reg path).getD emptyEntry) := by
    cases hrp : reg path with
    | none => simpa using entryInv_empty
    | some e => simpa using hreg path e hrp
  cases k with
  | Deleted =>
    unfold notifyFileChange at he'
    simp only at he'
    rw [updateReg_eq] at he'
    by_cases hq : q = path
    · rw [if_pos hq] at he'
      exact absurd he' (by simp)
    · rw [if_neg hq] at he'
      exact hreg q e' he'
  | Created =>
    unfold notifyFileChange at he'
    simp only at he'
    rw [updateReg_eq] at he'
    by_cases hq : q = path
    · rw [if_pos hq] at he'
      injection he' with he'
      subst he'
      refine ⟨fun d hd => hbase.1 d hd, fun g t hin => ?_⟩
      have h1 := (hbase.2 g t hin).1
      exact ⟨Nat.le_succ_of_le h1,
        fun hg => absurd hg (Nat.ne_of_lt (Nat.lt_succ_of_le h1))⟩
    · rw [if_neg hq] at he'
      exact hreg q e' he'
  | Changed =>
    unfold notifyFileChange at he'
    simp only at he'
    rw [updateReg_eq] at he'
    by_cases hq : q = path
    · rw [if_pos hq] at he'
      injection he' with he'
      subst he'
      refine ⟨fun d hd => hbase.1 d hd, fun g t hin => ?_⟩
      have h1 := (hbase.2 g t hin).1
      exact ⟨Nat.le_succ_of_le h1,
        fun hg => absurd hg (Nat.ne_of_lt (Nat.lt_succ_of_le h1))⟩
    · rw [if_neg hq] at he'
      exact hreg q e' he'

theorem regInv_startRebuild (reg : Registry) (path : String) (hreg : RegInv reg) :
    RegInv (startRebuild reg path) := by
  intro q e' he'
  unfold startRebuild at he'
  cases hrp : reg path with
  | none =>
    rw [hrp] at he'
    exact hreg q e' he'
  | some e =>
    rw [hrp] at he'
    simp only at he'
    rw [updateReg_eq] at he'
    by_cases hq : q = path
    · rw [if_pos hq] at he'
      injection he' with he'
      subst he'
      have hbase := hreg path e hrp
      refine ⟨fun d hd => hbase.1 d hd, fun g t hin => ?_⟩
      simp only [Option.some.injEq, Prod.mk.injEq] at hin
      obtain ⟨rfl, rfl⟩ := hin
      exact ⟨Nat.le_refl _, fun _ => rfl⟩
    · rw [if_neg hq] at he'
      exact hreg q e' he'

theorem regInv_completeRebuild (bld : Doc → List Decoration) (reg : Registry)
    (path : String) (hb : BuilderValid bld) (hreg : RegInv reg) :
    RegInv (completeRebuild bld reg path) := by
  intro q e' he'
  unfold completeRebuild at he'
  cases hrp : reg path with
  | none =>
    rw [hrp] at he'
    exact hreg q e' he'
  | some e =>
    rw [hrp] at he'
    simp only at he'
    cases hin : e.inflight with
    | none =>
      rw [hin] at he'
      simp only at he'
      exact hreg q e' he'
    | some gt =>
      obtain ⟨g, t⟩ := gt
      rw [hin] at he'
      simp only at he'
      have hbase := hreg path e hrp
      by_cases hg : g = e.generation
      · rw [if_pos hg] at he'
        unfold updateReg at he'
        by_cases hq : q = path
        · rw [if_pos hq] at he'
          injection he' with he'
          subst he'
          have ht : t = e.currentText := (hbase.2 g t hin).2 hg
          refine ⟨fun d hd => ?_, fun g2 t2 hin2 => by simp at hin2⟩
          simp only at hd ⊢
          subst ht
          exact hb e.currentText d hd
        · rw [if_neg hq] at he'
          exact hreg q e' he'
      · rw [if_neg hg] at he'
        unfold updateReg at he'
        by_cases hq : q = path
        · rw [if_pos hq] at he'
          injection he' with he'
          subst he'
          refine ⟨fun d hd => hbase.1 d hd, fun g2 t2 hin2 => by simp at hin2⟩
        · rw [if_neg hq] at he'
          exact hreg q e' he'

/-- C1: for every TextChange with a well-formed range and every
Position, the position-remap routine (a pure, total function) leaves a
position strictly before the changed range unchanged, maps a position
inside or at the boundary of the range to the end of the inserted text
(collapsing positions of a deleted span to the edit's start when the
inserted text is empty), shifts a position strictly after the range by
the net line and character delta, and in particular a change inserting k
characters at a position strictly before a given position on the same
line shifts that position's character offset by exactly k. -/
theorem spec_c1_remap_contract (c : TextChange) (p : Position)
    (hv : posLe c.start c.endPos = true) :
    (posLt p c.start = true → remapPosition c p = p) ∧
    (posLt p c.start = false → posLe p c.endPos = true →
      remapPosition c p = endOfInsert c) ∧
    (c.newText = [] → posLt p c.start = false → posLe p c.endPos = true →
      remapPosition c p = c.start) ∧
    (posLe p c.endPos = false → p.line = c.endPos.line →
      remapPosition c p =
        { line := (endOfInsert c).line,
          character := (endOfInsert c).character + (p.character - c.endPos.character) }) ∧
    (posLe p c.endPos = false → p.line ≠ c.endPos.line →
      remapPosition c p =
        { line := p.line - c.endPos.line + (endOfInsert c).line,
          character := p.character }) ∧
    ('\n' ∉ c.newText → c.endPos = c.start → p.line = c.start.line →
      c.start.character < p.character →
      remapPosition c p = { line := p.line, character := p.character + c.newText.length }) := by
  have hnotlt : posLe p c.endPos = false → posLt p c.start = false := by
    intro h1
    cases hb : posLt p c.start with
    | false => rfl
    | true =>
      exfalso
      simp [posLt, posLe] at hb hv h1
      omega
  refine ⟨?_, ?_, ?_, ?_, ?_, ?_⟩
  · intro h
    simp [remapPosition, h]
  · intro h1 h2
    simp [remapPosition, h1, h2]
  · intro hnil h1 h2
    simp [remapPosition, h1, h2]
    simp [endOfInsert, hnil, splitLines]
  · intro h1 h2
    have h0 := hnotlt h1
    simp [remapPosition, h0, h1, h2]
  · intro h1 h2
    have h0 := hnotlt h1
    simp [remapPosition, h0, h1, h2]
  · intro hnl hee hpl hlt
    have heoi := endOfInsert_single c hnl
    have h0 : posLt p c.start = false := by
      simp [posLt]
      omega
    have h1 : posLe p c.endPos = false := by
      rw [hee]
      simp [posLe]
      omega
    have h2 : p.line = c.endPos.line := by rw [hee]; exact hpl
    simp [remapPosition, h0, h1, h2, heoi]
    constructor
    · rw [hee]
    · rw [hee]
      omega

/-- C1 witness: the spec's concrete scenario on the one-line text
"let x = 1;": inserting "//" at (0,0) moves a decoration anchor at (0,5)
to (0,7). -/
theorem spec_c1_witness :
    validPosB exampleDoc { line := 0, character := 5 } = true ∧
    remapPosition
      { start := { line := 0, character := 0 },
        endPos := { line := 0, character := 0 },
        newText := ['/', '/'] }
      { line := 0, character := 5 } = { line := 0, character := 7 } := by
  refine ⟨by decide, ?_⟩
  have h := (spec_c1_remap_contract
    { start := { line := 0, character := 0 },
      endPos := { line := 0, character := 0 },
      newText := ['/', '/'] }
    { line := 0, character := 5 } (by decide)).2.2.2.2.2
    (by decide) rfl rfl (by decide)
  rw [h]
  rfl

theorem any_cancels_filter (delay : Nat) (m : Mutation) (q : String)
    (rest : List Mutation) (hmq : m.path = q) :
    (rest.filter (fun x => x.path == q)).any (cancels delay m)
      = rest.any (cancels delay m) := by
  induction rest with
  | nil => rfl
  | cons x xs ih =>
    by_cases hx : x.path = q
    · simp only [List.filter_cons, hx, beq_self_eq_true, if_true, List.any_cons, ih]
    · have hc : cancels delay m x = false := by
        simp [cancels, hmq]
        intro hxp
        exact absurd hxp hx
      simp only [List.filter_cons]
      rw [if_neg (by simp [hx])]
      simp only [List.any_cons, hc, Bool.false_or, ih]

/-- C2: a burst of N dirtying mutations to one path, each arriving
within updateDelay of its predecessor, collapses to exactly one rebuild
carrying the text state of the last mutation; and the debounce is per
path: restricting the performed rebuilds to a path equals running the
scheduler on just that path's mutations, so mutations to one path never
cancel or re-arm another path's timer. -/
theorem spec_c2_debounce_collapse (delay : Nat) (p : String) (muts : List Mutation)
    (hne : muts ≠ [])
    (hall : ∀ m ∈ muts, m.path = p)
    (hburst : muts.Chain' (fun a b => b.time ≤ a.time + delay)) :
    rebuildsFrom delay muts = [(p, (muts.getLast hne).text)] ∧
    (∀ (all : List Mutation) (q : String),
      (rebuildsFrom delay all).filter (fun r => r.1 == q)
        = rebuildsFrom delay (all.filter (fun m => m.path == q))) := by
  constructor
  · induction muts with
    | nil => exact absurd rfl hne
    | cons m rest ih =>
      cases rest with
      | nil =>
        have hm := hall m (List.mem_cons_self _ _)
        simp [rebuildsFrom, hm, List.getLast]
      | cons m2 rest2 =>
        have h2 : m2.time ≤ m.time + delay := (List.chain'_cons.mp hburst).1
        have hcan : (m2 :: rest2).any (cancels delay m) = true := by
          simp only [List.any_cons, Bool.or_eq_true]
          left
          simp [cancels, h2]
          rw [hall m2 (by simp), hall m (List.mem_cons_self _ _)]
        have hne2 : m2 :: rest2 ≠ [] := by simp
        have hstep : rebuildsFrom delay (m :: m2 :: rest2)
            = if (m2 :: rest2).any (cancels delay m) = true
              then rebuildsFrom delay (m2 :: rest2)
              else (m.path, m.text) :: rebuildsFrom delay (m2 :: rest2) := rfl
        rw [hstep, if_pos hcan, List.getLast_cons hne2]
        exact ih hne2 (fun x hx => hall x (List.mem_cons_of_mem _ hx))
          (List.chain'_cons.mp hburst).2
  · intro all q
    induction all with
    | nil => rfl
    | cons m rest ih =>
      have hstep : rebuildsFrom delay (m :: rest)
          = if rest.any (cancels delay m) = true
            then rebuildsFrom delay rest
            else (m.path, m.text) :: rebuildsFrom delay rest := rfl
      by_cases hm : m.path = q
      · have hf : List.filter (fun x => x.path == q) (m :: rest)
            = m :: rest.filter (fun x => x.path == q) := by
          rw [List.filter_cons, if_pos (by simp [hm])]
        rw [hf, hstep]
        have hstep2 : rebuildsFrom delay (m :: rest.filter (fun x => x.path == q))
            = if (rest.filter (fun x => x.path == q)).any (cancels delay m) = true
              then rebuildsFrom delay (rest.filter (fun x => x.path == q))
              else (m.path, m.text)
                :: rebuildsFrom delay (rest.filter (fun x => x.path == q)) := rfl
        rw [hstep2, any_cancels_filter delay m q rest hm]
        by_cases hc : rest.any (cancels delay m) = true
        · rw [if_pos hc, if_pos hc]
          exact ih
        · rw [if_neg hc, if_neg hc, List.filter_cons, if_pos (by simp [hm]), ih]
      · have hf : List.filter (fun x => x.path == q) (m :: rest)
            = rest.filter (fun x => x.path == q) := by
          rw [List.filter_cons, if_neg (by simp [hm])]
        rw [hf, hstep]
        by_cases hc : rest.any (cancels delay m) = true
        · rw [if_pos hc]
          exact ih
        · rw [if_neg hc, List.filter_cons, if_neg (by simp [hm])]
          exact ih

/-- C2 witness: two edits to one path 50 ms apart with a 100 ms delay
produce exactly one rebuild with the later text. -/
theorem spec_c2_witness :
    rebuildsFrom 100
      [{ time := 0, path := "a.ts", text := [[]] },
       { time := 50, path := "a.ts", text := [['x']] }]
      = [("a.ts", [['x']])] := by
  have h := (spec_c2_debounce_collapse 100 "a.ts"
    [{ time := 0, path := "a.ts", text := [[]] },
     { time := 50, path := "a.ts", text := [['x']] }]
    (by simp) (by simp) (by simp)).1
  rw [h]
  rfl

/-- C3: an edit arriving while a rebuild is in flight mutates the
registry's text immediately (the batch is folded into currentText, the
in-flight marker untouched, the generation bumped), and a completing
rebuild whose start generation no longer matches is discarded: the
stored decorations are left untouched and the debounce timer is
re-armed. -/
theorem spec_c3_stale_rejection (bld : Doc → List Decoration) (reg : Registry)
    (path : String) (cs : List TextChange) (e : FileEntry)
    (he : reg path = some e) :
    ((notifyDocumentChange reg path cs) path =
      some { cs.foldl applyChangeEntry e with
               dirty := true, pendingTimer := true,
               generation := e.generation + 1 }) ∧
    ((cs.foldl applyChangeEntry e).currentText = cs.foldl applyChange e.currentText) ∧
    ((cs.foldl applyChangeEntry e).inflight = e.inflight) ∧
    (∀ g t, e.inflight = some (g, t) → g ≠ e.generation →
      (completeRebuild bld reg path) path =
        some { e with inflight := none, pendingTimer := true }) := by
  refine ⟨?_, (foldl_applyChangeEntry_proj cs e).1, (foldl_applyChangeEntry_proj cs e).2.1, ?_⟩
  · unfold notifyDocumentChange
    rw [he]
    simp [updateReg]
  · intro g t hin hg
    unfold completeRebuild
    rw [he]
    simp only
    rw [hin]
    simp only
    rw [if_neg hg]
    simp [updateReg]

/-- C3 witness: a stale completion against a concrete one-entry registry
leaves the decorations untouched and re-arms the timer. -/
theorem spec_c3_witness :
    (completeRebuild (fun _ => [])
        (updateReg (fun _ => none) "a.ts"
          (some { currentText := [[]], decorations := [], dirty := true,
                  pendingTimer := false, generation := 1,
                  inflight := some (0, [[]]) }))
        "a.ts") "a.ts" =
      some { currentText := [[]], decorations := [], dirty := true,
             pendingTimer := true, generation := 1, inflight := none } := by
  have h := (spec_c3_stale_rejection (fun _ => [])
    (updateReg (fun _ => none) "a.ts"
      (some { currentText := [[]], decorations := [], dirty := true,
              pendingTimer := false, generation := 1,
              inflight := some (0, [[]]) }))
    "a.ts" []
    { currentText := [[]], decorations := [], dirty := true,
      pendingTimer := false, generation := 1, inflight := some (0, [[]]) }
    (by simp [updateReg])).2.2.2 0 [[]] rfl (by decide)
  exact h

/-- C5: after a Deleted notification the registry entry for the path is
gone (and with it any pending debounce timer), getDecorations returns
the empty sequence, other paths are untouched, and a Deleted
notification for an unknown path leaves the whole registry pointwise
unchanged. -/
theorem spec_c5_deletion_cleanup (reg : Registry) (path : String) :
    ((notifyFileChange reg path FileChangeType.Deleted) path = none) ∧
    (getDecorations (notifyFileChange reg path FileChangeType.Deleted) path = []) ∧
    (∀ q, q ≠ path → (notifyFileChange reg path FileChangeType.Deleted) q = reg q) ∧
    (reg path = none →
      ∀ q, (notifyFileChange reg path FileChangeType.Deleted) q = reg q) := by
  refine ⟨?_, ?_, ?_, ?_⟩
  · simp [notifyFileChange, updateReg]
  · simp [getDecorations, notifyFileChange, updateReg]
  · intro q hq
    simp [notifyFileChange, updateReg, hq]
  · intro hnone q
    by_cases hq : q = path
    · subst hq
      rw [hnone]
      simp [notifyFileChange, updateReg]
    · simp [notifyFileChange, updateReg, hq]

/-- C5 witness: deleting a path with a pending rebuild yields an empty
decoration sequence, and deleting an unknown path is a no-op. -/
theorem spec_c5_witness :
    getDecorations
      (notifyFileChange
        (updateReg (fun _ => none) "a.ts"
          (some { currentText := [[]], decorations := [], dirty := true,
                  pendingTimer := true, generation := 3, inflight := none }))
        "a.ts" FileChangeType.Deleted) "a.ts" = [] ∧
    (notifyFileChange (fun _ => none) "b.ts" FileChangeType.Deleted) "b.ts"
      = (fun (_ : String) => (none : Option FileEntry)) "b.ts" := by
  constructor
  · exact (spec_c5_deletion_cleanup
      (updateReg (fun _ => none) "a.ts"
        (some { currentText := [[]], decorations := [], dirty := true,
                pendingTimer := true, generation := 3, inflight := none }))
      "a.ts").2.1
  · exact (spec_c5_deletion_cleanup (fun _ => none) "b.ts").2.2.2 rfl "b.ts"

/-- C7: getDecorations is a pure, total read: for an unknown path it
returns the empty sequence, and for a known path it returns exactly the
stored decoration sequence, so it never triggers analysis or any other
mutation as a side effect. -/
theorem spec_c7_query_surface (reg : Registry) (path : String) :
    (reg path = none → getDecorations reg path = []) ∧
    (∀ e, reg path = some e → getDecorations reg path = e.decorations) := by
  constructor
  · intro h
    simp [getDecorations, h]
  · intro e h
    simp [getDecorations, h]

/-- C7 witness: a path never seen by a fresh engine yields the empty
sequence. -/
theorem spec_c7_witness :
    getDecorations (freshEngine
      { features := fun _ => true, updateDelay := 0,
        decorationStyle := { opacity := 1, color := "black", warnColor := "red" } }).reg
      "never-seen.ts" = [] :=
  (spec_c7_query_surface (freshEngine
    { features := fun _ => true, updateDelay := 0,
      decorationStyle := { opacity := 1, color := "black", warnColor := "red" } }).reg
    "never-seen.ts").1 rfl

/-- C9: every engine operation leaves the injected configuration
snapshot untouched, and a configuration change is handled only by
constructing a fresh engine instance carrying the new snapshot, the old
instance being disposed; an unaffecting change leaves the instance
alone. -/
theorem spec_c9_config_snapshot (E : Engine) (path : String) (k : FileChangeType)
    (cs : List TextChange) (oracle : Oracle) (newCfg : Configuration) :
    (engineNotifyFileChange E path k).cfg = E.cfg ∧
    (engineNotifyDocumentChange E path cs).cfg = E.cfg ∧
    (engineStartRebuild E path).cfg = E.cfg ∧
    (engineCompleteRebuild oracle E path).cfg = E.cfg ∧
    handleConfigurationChange true E newCfg = freshEngine newCfg ∧
    (freshEngine newCfg).cfg = newCfg ∧
    handleConfigurationChange false E newCfg = E :=
  ⟨rfl, rfl, rfl, rfl, rfl, rfl, rfl⟩

/-- C4: with a position-sound builder, every decoration served by
getDecorations satisfies start at most end with both positions in bounds
of the path's last-known text, and this validity invariant is preserved
by every operation: notifyDocumentChange with a well-formed batch
(remapping keeps stale decorations valid against the updated snapshot),
notifyFileChange of every kind, rebuild start and rebuild completion. -/
theorem spec_c4_position_validity (bld : Doc → List Decoration) (reg : Registry)
    (hb : BuilderValid bld) (hreg : RegInv reg) :
    (∀ path d, d ∈ getDecorations reg path →
      decorationValidB (entryText reg path) d = true) ∧
    (∀ path cs, validChangesB (entryText reg path) cs = true →
      RegInv (notifyDocumentChange reg path cs)) ∧
    (∀ path k, RegInv (notifyFileChange reg path k)) ∧
    (∀ path, RegInv (startRebuild reg path)) ∧
    (∀ path, RegInv (completeRebuild bld reg path)) := by
  refine ⟨?_, ?_, ?_, ?_, ?_⟩
  · intro path d hd
    unfold getDecorations at hd
    cases hrp : reg path with
    | none =>
      rw [hrp] at hd
      simp at hd
    | some e =>
      rw [hrp] at hd
      simp only at hd
      have htext : entryText reg path = e.currentText := by
        simp [entryText, hrp]
      rw [htext]
      exact (hreg path e hrp).1 d hd
  · intro path cs hcs
    exact regInv_notifyDocumentChange reg path cs hreg hcs
  · intro path k
    exact regInv_notifyFileChange reg path k hreg
  · intro path
    exact regInv_startRebuild reg path hreg
  · intro path
    exact regInv_completeRebuild bld reg path hb hreg

/-- C4 witness: the invariant holds across a Created notification on an
empty registry with the trivial builder. -/
theorem spec_c4_witness :
    RegInv (notifyFileChange (fun _ => none) "a.ts" FileChangeType.Created) :=
  (spec_c4_position_validity (fun _ => []) (fun _ => none)
    (fun doc d hd => absurd hd (List.not_mem_nil d))
    (fun path e h => absurd h (by simp))).2.2.1 "a.ts" FileChangeType.Created

/-- C6: the Decoration Builder is a pure function of the text (two runs
on identical text yield identical, order-preserving sequences), its
result is sorted by startPosition, and no two result decorations share
the exact same key tuple of range and rendered texts. -/
theorem spec_c6_builder_idempotent (oracle : Oracle) (cfg : Configuration)
    (doc : Doc) :
    build oracle cfg doc = build oracle cfg doc ∧
    List.Sorted decoLe (build oracle cfg doc) ∧
    (build oracle cfg doc).Pairwise (fun a b => decoKey a ≠ decoKey b) := by
  refine ⟨rfl, ?_, ?_⟩
  · exact List.Pairwise.sublist (dedupAux_sublist [] _) (sorted_sortByStart _)
  · exact dedupAux_pairwise [] _

/-- C8: in a build, an enabled node fact whose inferred type text is
exactly any yields a decoration flagged as warning when highlightAny is
enabled; with highlightAny disabled no emitted decoration carries the
warning flag; and every decoration whose rendered type text is not any
has the flag clear. -/
theorem spec_c8_highlight_any (oracle : Oracle) (cfg : Configuration) (doc : Doc) :
    (∀ f ∈ oracle doc, cfg.features f.feature = true →
      cfg.features FeatureType.highlightAny = true → f.typeText = "any" →
      ∃ d ∈ build oracle cfg doc,
        d.startPosition = f.startPosition ∧ d.endPosition = f.endPosition ∧
        d.isWarning = true) ∧
    (∀ d ∈ build oracle cfg doc,
      cfg.features FeatureType.highlightAny = false → d.isWarning = false) ∧
    (∀ d ∈ build oracle cfg doc, d.textAfter ≠ "any" → d.isWarning = false) := by
  refine ⟨?_, ?_, ?_⟩
  · intro f hf hen hha hany
    have hmem : factDecoration cfg f ∈ sortByStart
        (((oracle doc).filter (fun x => cfg.features x.feature)).map
          (factDecoration cfg)) := by
      rw [mem_sortByStart]
      exact List.mem_map_of_mem _ (List.mem_filter.mpr ⟨hf, hen⟩)
    obtain ⟨d2, hd2, hkey⟩ := dedupByKey_exists_key _ _ hmem
    refine ⟨d2, hd2, ?_⟩
    obtain ⟨f2, _, _, hd2eq⟩ := build_subset_facts oracle cfg doc d2 hd2
    simp only [decoKey, factDecoration, Prod.mk.injEq] at hkey
    obtain ⟨hk1, hk2, _, hk4⟩ := hkey
    refine ⟨hk1, hk2, ?_⟩
    rw [hd2eq]
    simp only [factDecoration, Bool.and_eq_true, hha, Bool.true_and]
    have : f2.typeText = "any" := by
      rw [hd2eq] at hk4
      simp only [factDecoration] at hk4
      rw [hk4, hany]
    rw [this]
    rfl
  · intro d hd hoff
    obtain ⟨f, _, _, hdeq⟩ := build_subset_facts oracle cfg doc d hd
    rw [hdeq]
    simp [factDecoration, hoff]
  · intro d hd hna
    obtain ⟨f, _, _, hdeq⟩ := build_subset_facts oracle cfg doc d hd
    have hft : f.typeText ≠ "any" := by
      intro h
      apply hna
      rw [hdeq]
      simpa [factDecoration] using h
    rw [hdeq]
    simp [factDecoration, hft]

/-- C8 witness: a single any-typed variable fact with all features on
yields a warning-flagged decoration in the build. -/
theorem spec_c8_witness :
    ∃ d ∈ build
        (fun _ => [{ feature := FeatureType.variableType,
                     startPosition := { line := 0, character := 0 },
                     endPosition := { line := 0, character := 1 },
                     typeText := "any" }])
        { features := fun _ => true, updateDelay := 0,
          decorationStyle := { opacity := 1, color := "black", warnColor := "red" } }
        [[]],
      d.startPosition = { line := 0, character := 0 } ∧
      d.endPosition = { line := 0, character := 1 } ∧
      d.isWarning = true :=
  (spec_c8_highlight_any
    (fun _ => [{ feature := FeatureType.variableType,
                 startPosition := { line := 0, character := 0 },
                 endPosition := { line := 0, character := 1 },
                 typeText := "any" }])
    { features := fun _ => true, updateDelay := 0,
      decorationStyle := { opacity := 1, color := "black", warnColor := "red" } }
    [[]]).1 _ (List.mem_cons_self _ _) rfl rfl rfl

/-- C10: one pass of the command-driven updateDecorations over a head
decoration with non-empty textAfter: the edit it performs replaces the
one-character range starting at endPosition with textAfter concatenated
with the original character there, the result is saved to disk, the loop
returns right after the save on its last iteration, and otherwise the
decoration list is re-fetched from a freshly constructed service on the
saved document before the next decoration is processed. -/
theorem spec_c10_command_update (provider : Doc → List Decoration) (i : Nat)
    (st : HostState) (d : Decoration) (rest : List Decoration)
    (hA : d.textAfter ≠ "") :
    ((insertAfterChange st.doc d).start = d.endPosition) ∧
    ((insertAfterChange st.doc d).endPos =
      { line := d.endPosition.line, character := d.endPosition.character + 1 }) ∧
    ((insertAfterChange st.doc d).newText =
      d.textAfter.toList ++ getCharAt st.doc d.endPosition) ∧
    (updateDecorations provider 1 st (d :: rest) =
      { doc := applyChange st.doc (insertAfterChange st.doc d),
        savedDoc := applyChange st.doc (insertAfterChange st.doc d) }) ∧
    (updateDecorations provider (i + 2) st (d :: rest) =
      updateDecorations provider (i + 1)
        { doc := applyChange st.doc (insertAfterChange st.doc d),
          savedDoc := applyChange st.doc (insertAfterChange st.doc d) }
        (if d.textBefore ≠ ""
          then (provider (applyChange st.doc (insertAfterChange st.doc d))).tail
          else provider (applyChange st.doc (insertAfterChange st.doc d)))) := by
  refine ⟨rfl, rfl, rfl, ?_, ?_⟩
  · simp [updateDecorations, hA]
  · simp [updateDecorations, hA]

/-- C10 witness: with document "ab", a decoration with textAfter "x"
anchored at (0,0) rewrites the document to "xab" and saves it. -/
theorem spec_c10_witness :
    updateDecorations (fun _ => []) 1
      { doc := [['a', 'b']], savedDoc := [['a', 'b']] }
      [{ textBefore := "", textAfter := "x",
         startPosition := { line := 0, character := 0 },
         endPosition := { line := 0, character := 0 }, isWarning := false }]
      = { doc := [['x', 'a', 'b']], savedDoc := [['x', 'a', 'b']] } := by
  have h := (spec_c10_command_update (fun _ => []) 0
    { doc := [['a', 'b']], savedDoc := [['a', 'b']] }
    { textBefore := "", textAfter := "x",
      startPosition := { line := 0, character := 0 },
      endPosition := { line := 0, character := 0 }, isWarning := false }
    [] (by decide)).2.2.2.1
  rw [h]
  rfl

